import Mathlib

/-!
# Verification of the Shark LBFGS direction engine

Shallow embedding of `src/Algorithms/GradientDescent/LBFGS.cpp` (class `LBFGS`):
history maintenance (`updateHist`), the two-loop inverse-Hessian product
(`multBInv`), the compact forward Hessian product (`multB`), and the
box-constrained direction computation (`getBoxConstrainedDirection`).

Real vectors (`RealVector`, dynamically sized vectors of IEEE doubles) are
modelled as `Fin n → ℚ`: exact rational arithmetic in place of floating point,
which is the "exact real arithmetic" reading of the specification.
-/

/-- Vectors of dimension `n`, the model of Shark's `RealVector`. -/
abbrev Vec (n : ℕ) : Type := Fin n → ℚ

/-- `inner_prod(x, y)` of Shark/boost uBLAS: the standard dot product. -/
def inner_prod {n : ℕ} (x y : Vec n) : ℚ := ∑ i, x i * y i

/-- The persistent state of the `LBFGS` optimizer that the direction engine
reads and writes: `m_numHist`, `m_updThres`, `m_bdiag`, `m_steps`
(oldest first) and `m_gradientDifferences` (index-aligned with `m_steps`). -/
structure LState (n : ℕ) where
  numHist : ℕ
  updThres : ℚ
  bdiag : ℚ
  steps : List (Vec n)
  gradientDifferences : List (Vec n)

/-- The stored history as a list of `(s, y)` pairs, oldest first.  The C++
loops run over indices `i < m_steps.size()`, reading
`m_steps[i]` and `m_gradientDifferences[i]`; the class invariant keeps the two
deques the same length, so zipping loses nothing. -/
def LState.pairs {n : ℕ} (st : LState n) : List (Vec n × Vec n) :=
  st.steps.zip st.gradientDifferences

/-- `LBFGS::initModel`: identity scaling, threshold `1e-10`, empty history. -/
def initModel (n : ℕ) (numHist : ℕ) : LState n :=
  { numHist := numHist
    updThres := 1 / 10 ^ 10
    bdiag := 1
    steps := []
    gradientDifferences := [] }

/-- `LBFGS::updateHist(y, step)`: if the curvature `inner_prod(y, step)` is
above `m_updThres`, pop the oldest pair when at capacity, append the new pair
and set `m_bdiag = inner_prod(y,y)/ys`; otherwise do nothing. -/
def updateHist {n : ℕ} (st : LState n) (y step : Vec n) : LState n :=
  let ys := inner_prod y step
  if st.updThres < ys then
    let st1 :=
      if st.numHist ≤ st.steps.length then
        { st with steps := st.steps.tail,
                  gradientDifferences := st.gradientDifferences.tail }
      else st
    { st1 with steps := st1.steps ++ [step],
               gradientDifferences := st1.gradientDifferences ++ [y],
               bdiag := inner_prod y y / ys }
  else st

/-! ## The two-loop recursion `LBFGS::multBInv`

The C++ runs a backward loop (newest to oldest pair) storing `alpha(i)` and
mutating `x`, divides by `m_bdiag`, then runs a forward loop (oldest to
newest).  `bwdAux` takes the pairs newest-first (the reversed history) and
returns the alphas oldest-first together with the mutated vector; `fwdAux`
consumes the pairs oldest-first, each with its alpha. -/

/-- Backward loop of `multBInv` over the pairs given newest first:
`alpha(i-1) = rho(i-1) * inner_prod(steps[i-1], x); x -= alpha(i-1) * y[i-1]`.
Returns the alphas oldest-first and the final vector. -/
def bwdAux {n : ℕ} : List (Vec n × Vec n) → Vec n → List ℚ × Vec n
  | [], x => ([], x)
  | (s, y) :: rest, x =>
      let rho := 1 / inner_prod y s
      let a := rho * inner_prod s x
      let p := bwdAux rest (x - a • y)
      (p.1 ++ [a], p.2)

/-- Forward loop of `multBInv` over the pairs oldest first, paired with their
alphas: `beta = rho(i) * inner_prod(y[i], x); x += steps[i] * (alpha(i) - beta)`. -/
def fwdAux {n : ℕ} : List ((Vec n × Vec n) × ℚ) → Vec n → Vec n
  | [], x => x
  | ((s, y), a) :: rest, x =>
      let rho := 1 / inner_prod y s
      let beta := rho * inner_prod y x
      fwdAux rest (x + (a - beta) • s)

/-- `LBFGS::multBInv` on an explicit history: backward pass, division of every
component by `m_bdiag`, forward pass. -/
def multBInvP {n : ℕ} (bdiag : ℚ) (pairs : List (Vec n × Vec n)) (x : Vec n) :
    Vec n :=
  let p := bwdAux pairs.reverse x
  fwdAux (pairs.zip p.1) (fun i => p.2 i / bdiag)

/-- `LBFGS::multBInv(x)`: the two-loop recursion over the stored history. -/
def multBInv {n : ℕ} (st : LState n) (x : Vec n) : Vec n :=
  multBInvP st.bdiag st.pairs x

/-- The two-loop recursion with the two passes fused into one structural
recursion over the pairs given newest first; the stored `alpha` of each pair
becomes a local of the corresponding recursion frame. -/
def twoLoopRec {n : ℕ} (bdiag : ℚ) : List (Vec n × Vec n) → Vec n → Vec n
  | [], x => fun i => x i / bdiag
  | (s, y) :: rest, x =>
      let rho := 1 / inner_prod y s
      let a := rho * inner_prod s x
      let z := twoLoopRec bdiag rest (x - a • y)
      z + (a - rho * inner_prod y z) • s

theorem bwdAux_fst_length {n : ℕ} (l : List (Vec n × Vec n)) (x : Vec n) :
    (bwdAux l x).1.length = l.length := by
  induction l generalizing x with
  | nil => rfl
  | cons p rest ih =>
      obtain ⟨s, y⟩ := p
      simp [bwdAux, ih]

theorem fwdAux_append {n : ℕ} (l₁ l₂ : List ((Vec n × Vec n) × ℚ)) (x : Vec n) :
    fwdAux (l₁ ++ l₂) x = fwdAux l₂ (fwdAux l₁ x) := by
  induction l₁ generalizing x with
  | nil => rfl
  | cons p rest ih =>
      obtain ⟨⟨s, y⟩, a⟩ := p
      simp [fwdAux, ih]

theorem multBInvP_reverse_eq {n : ℕ} (bdiag : ℚ)
    (rev : List (Vec n × Vec n)) (x : Vec n) :
    multBInvP bdiag rev.reverse x = twoLoopRec bdiag rev x := by
  induction rev generalizing x with
  | nil => rfl
  | cons p rest ih =>
      obtain ⟨s, y⟩ := p
      have hbwd : (rest.reverse ++ [(s, y)]).reverse = (s, y) :: rest := by
        simp
      simp only [multBInvP, List.reverse_cons, hbwd, bwdAux]
      set a := 1 / inner_prod y s * inner_prod s x with ha
      set x1 := x - a • y with hx1
      have hzip : (rest.reverse ++ [(s, y)]).zip ((bwdAux rest x1).1 ++ [a]) =
          rest.reverse.zip (bwdAux rest x1).1 ++ [((s, y), a)] := by
        rw [List.zip_append (by simp [bwdAux_fst_length])]
        rfl
      rw [hzip, fwdAux_append]
      have hinner : fwdAux (rest.reverse.zip (bwdAux rest x1).1)
          (fun i => (bwdAux rest x1).2 i / bdiag) = multBInvP bdiag rest.reverse x1 := by
        simp [multBInvP]
      rw [hinner, ih x1]
      simp only [twoLoopRec, fwdAux]

/-- The literal two-pass `multBInv` equals the fused recursion on the
reversed (newest-first) history. -/
theorem multBInvP_eq_twoLoopRec {n : ℕ} (bdiag : ℚ)
    (pairs : List (Vec n × Vec n)) (x : Vec n) :
    multBInvP bdiag pairs x = twoLoopRec bdiag pairs.reverse x := by
  have := multBInvP_reverse_eq bdiag pairs.reverse x
  simpa using this

/-! ## Dense-matrix reference for the inverse operator

The specification's reference implementation of the limited-memory BFGS
inverse is the dense rank-2 inverse-update recursion
`H' = (I - rho y sᵀ)ᵀ H (I - rho y sᵀ) + rho s sᵀ`, applied over the stored
pairs oldest first, starting from `(1/m_bdiag) I`. -/

/-- Dense rank-2 BFGS inverse-update recursion over the pairs, oldest first.
This definition follows the specification's dense reference, to be compared
with the source's `multBInv`. -/
def denseHInv {n : ℕ} (bdiag : ℚ) (pairs : List (Vec n × Vec n)) :
    Matrix (Fin n) (Fin n) ℚ :=
  pairs.foldl
    (fun H sy =>
      let rho := 1 / inner_prod sy.2 sy.1
      let V : Matrix (Fin n) (Fin n) ℚ := 1 - rho • Matrix.vecMulVec sy.2 sy.1
      V.transpose * H * V + rho • Matrix.vecMulVec sy.1 sy.1)
    ((1 / bdiag) • 1)

theorem vecMulVec_mulVec_eq {n : ℕ} (a b x : Vec n) :
    (Matrix.vecMulVec a b).mulVec x = inner_prod b x • a := by
  funext i
  simp only [Matrix.mulVec, Matrix.vecMulVec_apply, Matrix.dotProduct,
    inner_prod, Pi.smul_apply, smul_eq_mul]
  rw [Finset.sum_mul]
  exact Finset.sum_congr rfl fun j _ => by ring

theorem vecMulVec_transpose_eq {n : ℕ} (a b : Vec n) :
    (Matrix.vecMulVec a b).transpose = Matrix.vecMulVec b a := by
  ext i j
  simp [Matrix.vecMulVec_apply, mul_comm]

/-- One step of the dense recursion, applied to a vector. -/
theorem denseHInv_step_mulVec {n : ℕ} (H : Matrix (Fin n) (Fin n) ℚ)
    (s y x : Vec n) (rho : ℚ) :
    (((1 : Matrix (Fin n) (Fin n) ℚ) - rho • Matrix.vecMulVec y s).transpose * H *
      ((1 : Matrix (Fin n) (Fin n) ℚ) - rho • Matrix.vecMulVec y s) +
      rho • Matrix.vecMulVec s s).mulVec x =
    (H.mulVec (x - (rho * inner_prod s x) • y)) +
      (rho * inner_prod s x -
        rho * inner_prod y (H.mulVec (x - (rho * inner_prod s x) • y))) • s := by
  rw [Matrix.add_mulVec, ← Matrix.mulVec_mulVec, ← Matrix.mulVec_mulVec]
  rw [Matrix.sub_mulVec, Matrix.one_mulVec, Matrix.smul_mulVec_assoc,
    vecMulVec_mulVec_eq]
  rw [Matrix.transpose_sub, Matrix.transpose_one, Matrix.transpose_smul,
    vecMulVec_transpose_eq]
  rw [Matrix.sub_mulVec, Matrix.one_mulVec, Matrix.smul_mulVec_assoc,
    vecMulVec_mulVec_eq, Matrix.smul_mulVec_assoc, vecMulVec_mulVec_eq]
  rw [smul_smul, smul_smul, smul_smul]
  set z := H.mulVec (x - (rho * inner_prod s x) • y)
  rw [sub_smul]
  abel

/-- The fused two-loop recursion computes exactly the dense reference inverse
applied to the vector. -/
theorem twoLoopRec_eq_mulVec {n : ℕ} (bdiag : ℚ)
    (rev : List (Vec n × Vec n)) (x : Vec n) :
    twoLoopRec bdiag rev x = (denseHInv bdiag rev.reverse).mulVec x := by
  induction rev generalizing x with
  | nil =>
      funext i
      simp [twoLoopRec, denseHInv, Matrix.smul_mulVec_assoc, Matrix.one_mulVec,
        div_eq_mul_inv, mul_comm]
  | cons p rest ih =>
      obtain ⟨s, y⟩ := p
      have hfold : denseHInv bdiag ((s, y) :: rest).reverse =
          ((1 : Matrix (Fin n) (Fin n) ℚ) -
              (1 / inner_prod y s) • Matrix.vecMulVec y s).transpose *
            denseHInv bdiag rest.reverse *
            ((1 : Matrix (Fin n) (Fin n) ℚ) -
              (1 / inner_prod y s) • Matrix.vecMulVec y s) +
            (1 / inner_prod y s) • Matrix.vecMulVec s s := by
        simp only [denseHInv, List.reverse_cons, List.foldl_append,
          List.foldl_cons, List.foldl_nil]
      rw [hfold, denseHInv_step_mulVec, ← ih]
      simp only [twoLoopRec]

/-- `LBFGS::multBInv` computes the dense reference inverse applied to `x`. -/
theorem multBInv_eq_mulVec {n : ℕ} (st : LState n) (x : Vec n) :
    multBInv st x = (denseHInv st.bdiag st.pairs).mulVec x := by
  rw [multBInv, multBInvP_eq_twoLoopRec, twoLoopRec_eq_mulVec,
    List.reverse_reverse]

/-! ## Linearity of the inverse operator and the unconstrained direction -/

/-- The unconstrained branch of `LBFGS::computeSearchDirection`:
`m_searchDirection = -m_derivative` followed by `multBInv(m_searchDirection)`. -/
def unconstrainedSearchDirection {n : ℕ} (st : LState n) (derivative : Vec n) :
    Vec n :=
  multBInv st (-derivative)

theorem multBInv_add {n : ℕ} (st : LState n) (x y : Vec n) :
    multBInv st (x + y) = multBInv st x + multBInv st y := by
  simp [multBInv_eq_mulVec, Matrix.mulVec_add]

theorem multBInv_smul {n : ℕ} (st : LState n) (c : ℚ) (x : Vec n) :
    multBInv st (c • x) = c • multBInv st x := by
  simp [multBInv_eq_mulVec, Matrix.mulVec_smul]

theorem multBInv_neg {n : ℕ} (st : LState n) (x : Vec n) :
    multBInv st (-x) = -multBInv st x := by
  have := multBInv_smul st (-1) x
  simpa using this

/-! ## History maintenance: `LBFGS::updateHist` -/

/-- The pairs of a call sequence that pass the curvature test
`inner_prod(y, step) > threshold`; inputs are `(y, step)` in call order. -/
def admittedPairs {n : ℕ} (threshold : ℚ) (inputs : List (Vec n × Vec n)) :
    List (Vec n × Vec n) :=
  inputs.filter (fun p => decide (threshold < inner_prod p.1 p.2))

/-- Run a sequence of `updateHist` calls, oldest call first. -/
def runHist {n : ℕ} (st : LState n) (inputs : List (Vec n × Vec n)) : LState n :=
  inputs.foldl (fun s p => updateHist s p.1 p.2) st

/-- The last `m` elements of a list (all of it when it is shorter). -/
def suffixCap {α : Type} (m : ℕ) (l : List α) : List α := l.drop (l.length - m)

theorem updateHist_numHist {n : ℕ} (st : LState n) (y s : Vec n) :
    (updateHist st y s).numHist = st.numHist := by
  unfold updateHist
  by_cases h : st.updThres < inner_prod y s
  · simp only [if_pos h]
    by_cases h2 : st.numHist ≤ st.steps.length <;> simp [h2]
  · simp [h]

theorem updateHist_updThres {n : ℕ} (st : LState n) (y s : Vec n) :
    (updateHist st y s).updThres = st.updThres := by
  unfold updateHist
  by_cases h : st.updThres < inner_prod y s
  · simp only [if_pos h]
    by_cases h2 : st.numHist ≤ st.steps.length <;> simp [h2]
  · simp [h]

theorem updateHist_of_le {n : ℕ} (st : LState n) (y s : Vec n)
    (h : inner_prod y s ≤ st.updThres) : updateHist st y s = st := by
  simp [updateHist, not_lt.mpr h]

theorem updateHist_of_lt {n : ℕ} (st : LState n) (y s : Vec n)
    (h : st.updThres < inner_prod y s) :
    updateHist st y s =
      { st with
          steps :=
            (if st.numHist ≤ st.steps.length then st.steps.tail else st.steps)
              ++ [s],
          gradientDifferences :=
            (if st.numHist ≤ st.steps.length then st.gradientDifferences.tail
              else st.gradientDifferences) ++ [y],
          bdiag := inner_prod y y / inner_prod y s } := by
  simp only [updateHist, if_pos h]
  by_cases h2 : st.numHist ≤ st.steps.length <;> simp [h2]

theorem updateHist_of_lt_cap {n : ℕ} (st : LState n) (y s : Vec n)
    (h : st.updThres < inner_prod y s) (hcap : st.numHist ≤ st.steps.length) :
    updateHist st y s =
      { st with
          steps := st.steps.tail ++ [s],
          gradientDifferences := st.gradientDifferences.tail ++ [y],
          bdiag := inner_prod y y / inner_prod y s } := by
  rw [updateHist_of_lt st y s h]
  simp [hcap]

theorem updateHist_of_lt_nocap {n : ℕ} (st : LState n) (y s : Vec n)
    (h : st.updThres < inner_prod y s) (hcap : ¬st.numHist ≤ st.steps.length) :
    updateHist st y s =
      { st with
          steps := st.steps ++ [s],
          gradientDifferences := st.gradientDifferences ++ [y],
          bdiag := inner_prod y y / inner_prod y s } := by
  rw [updateHist_of_lt st y s h]
  simp [hcap]

theorem suffixCap_tail_append {α : Type} (m : ℕ) (A L : List α)
    (hm : A.length = m) (hL : 1 ≤ L.length) :
    suffixCap m (A.tail ++ L) = suffixCap m (A ++ L) := by
  cases A with
  | nil =>
      simp at hm
      simp [suffixCap, ← hm]
  | cons a t =>
      simp only [List.tail_cons, suffixCap, List.length_append, List.cons_append,
        List.length_cons]
      rw [show t.length + L.length - m = L.length - 1 by simp at hm; omega]
      rw [show t.length + L.length + 1 - m = L.length by simp at hm; omega]
      nth_rewrite 2 [show L.length = (L.length - 1) + 1 by omega]
      rw [List.drop_succ_cons]

/-- FIFO characterization of any `updateHist` call sequence: the final
history is the last `numHist` admitted pairs in admission order, appended
after whatever of the starting history survives. -/
theorem runHist_spec {n : ℕ} (inputs : List (Vec n × Vec n)) (st : LState n)
    (hm : 1 ≤ st.numHist)
    (hlen : st.steps.length ≤ st.numHist)
    (heq : st.gradientDifferences.length = st.steps.length) :
    (runHist st inputs).steps =
      suffixCap st.numHist
        (st.steps ++ (admittedPairs st.updThres inputs).map Prod.snd) ∧
    (runHist st inputs).gradientDifferences =
      suffixCap st.numHist
        (st.gradientDifferences ++ (admittedPairs st.updThres inputs).map Prod.fst) := by
  induction inputs generalizing st with
  | nil =>
      constructor
      · simp [runHist, admittedPairs, suffixCap, Nat.sub_eq_zero_of_le hlen]
      · simp [runHist, admittedPairs, suffixCap,
          Nat.sub_eq_zero_of_le (heq ▸ hlen)]
  | cons p rest ih =>
      have hrun : runHist st (p :: rest) = runHist (updateHist st p.1 p.2) rest :=
        rfl
      by_cases hc : st.updThres < inner_prod p.1 p.2
      · have hadm : admittedPairs st.updThres (p :: rest) =
            p :: admittedPairs st.updThres rest := by
          simp [admittedPairs, List.filter_cons, hc]
        by_cases hcap : st.numHist ≤ st.steps.length
        · have hlen' : st.steps.length = st.numHist := le_antisymm hlen hcap
          have hlenG : st.gradientDifferences.length = st.numHist := by omega
          have hupd := updateHist_of_lt_cap st p.1 p.2 hc hcap
          have ihst := ih (updateHist st p.1 p.2)
            (by rw [hupd]; exact hm)
            (by rw [hupd]; simp [List.length_tail]; omega)
            (by rw [hupd]; simp [List.length_tail]; omega)
          rw [updateHist_numHist, updateHist_updThres] at ihst
          rw [hrun, hadm]
          obtain ⟨h1, h2⟩ := ihst
          constructor
          · rw [h1, hupd]
            simp only [List.append_assoc, List.singleton_append, List.map_cons]
            exact suffixCap_tail_append st.numHist st.steps _ hlen' (by simp)
          · rw [h2, hupd]
            simp only [List.append_assoc, List.singleton_append, List.map_cons]
            exact suffixCap_tail_append st.numHist st.gradientDifferences _ hlenG
              (by simp)
        · have hupd := updateHist_of_lt_nocap st p.1 p.2 hc hcap
          have ihst := ih (updateHist st p.1 p.2)
            (by rw [hupd]; exact hm)
            (by rw [hupd]; simp; omega)
            (by rw [hupd]; simp; omega)
          rw [updateHist_numHist, updateHist_updThres] at ihst
          rw [hrun, hadm]
          obtain ⟨h1, h2⟩ := ihst
          constructor
          · rw [h1, hupd]
            simp [List.append_assoc]
          · rw [h2, hupd]
            simp [List.append_assoc]
      · have hadm : admittedPairs st.updThres (p :: rest) =
            admittedPairs st.updThres rest := by
          simp [admittedPairs, List.filter_cons, hc]
        rw [hrun, updateHist_of_le st p.1 p.2 (not_lt.mp hc), hadm]
        exact ih st hm hlen heq

/-! ## Claims about history maintenance and the inverse operator -/

/-- C3: after any sequence of `updateHist` calls from the empty history,
`steps` and `gradientDifferences` are the last `maxHistory` admitted pairs in
admission order (so both sequences have equal length, at most `maxHistory`,
oldest first with the newest admitted pair last, and eviction at capacity
drops the oldest pair from both together). -/
theorem claim_C3_history_fifo {n : ℕ} (m : ℕ) (inputs : List (Vec n × Vec n))
    (hm : 1 ≤ m) :
    (runHist (initModel n m) inputs).steps =
      suffixCap m ((admittedPairs (1 / 10 ^ 10) inputs).map Prod.snd) ∧
    (runHist (initModel n m) inputs).gradientDifferences =
      suffixCap m ((admittedPairs (1 / 10 ^ 10) inputs).map Prod.fst) ∧
    (runHist (initModel n m) inputs).steps.length =
      (runHist (initModel n m) inputs).gradientDifferences.length ∧
    (runHist (initModel n m) inputs).steps.length ≤ m := by
  have h := runHist_spec inputs (initModel n m) hm (by simp [initModel])
    (by simp [initModel])
  rw [show (initModel n m).numHist = m from rfl,
    show (initModel n m).updThres = 1 / 10 ^ 10 from rfl,
    show (initModel n m).steps = [] from rfl,
    show (initModel n m).gradientDifferences = [] from rfl,
    List.nil_append, List.nil_append] at h
  obtain ⟨h1, h2⟩ := h
  refine ⟨h1, h2, ?_, ?_⟩
  · rw [h1, h2]
    simp [suffixCap]
  · rw [h1]
    simp only [suffixCap, List.length_drop, List.length_map]
    omega

/-- C4: the curvature gate of `updateHist`: a pair with
`inner_prod(y, s) <= m_updThres` is silently skipped, leaving `steps`,
`gradientDifferences` and `m_bdiag` untouched; a pair above the threshold is
appended (after FIFO eviction at capacity) and `m_bdiag` becomes
`inner_prod(y,y)/inner_prod(y,s)`. -/
theorem claim_C4_curvature_gate {n : ℕ} (st : LState n) (y s : Vec n) :
    (inner_prod y s ≤ st.updThres → updateHist st y s = st) ∧
    (st.updThres < inner_prod y s →
      updateHist st y s =
        { st with
            steps :=
              (if st.numHist ≤ st.steps.length then st.steps.tail else st.steps)
                ++ [s],
            gradientDifferences :=
              (if st.numHist ≤ st.steps.length then st.gradientDifferences.tail
                else st.gradientDifferences) ++ [y],
            bdiag := inner_prod y y / inner_prod y s }) :=
  ⟨updateHist_of_le st y s, updateHist_of_lt st y s⟩

/-- C2: `multBInv` (the two-loop recursion) agrees with the dense rank-2 BFGS
inverse-update recursion over the stored pairs for history sizes 1, 2, 3. -/
theorem claim_C2_twoLoop_matches_dense {n : ℕ} (st : LState n) (x : Vec n)
    (_hlen : st.pairs.length = 1 ∨ st.pairs.length = 2 ∨ st.pairs.length = 3)
    (_hadm : ∀ p ∈ st.pairs, 0 < inner_prod p.2 p.1) :
    multBInv st x = (denseHInv st.bdiag st.pairs).mulVec x :=
  multBInv_eq_mulVec st x

/-- C8: the unconstrained branch returns `-applyInverse(derivative)`; in
particular with empty history and `m_bdiag = 1` the gradient `[2, -3]` gives
the steepest-descent direction `[-2, 3]`. -/
theorem claim_C8_unconstrained_direction :
    (∀ (n : ℕ) (st : LState n) (g : Vec n),
        unconstrainedSearchDirection st g = -multBInv st g) ∧
    unconstrainedSearchDirection (initModel 2 10) ![2, -3] = ![-2, 3] := by
  constructor
  · intro n st g
    exact multBInv_neg st g
  · funext i
    fin_cases i <;>
      norm_num [unconstrainedSearchDirection, multBInv, multBInvP, bwdAux,
        fwdAux, LState.pairs, initModel]

/-- C10: for a fixed history state, `multBInv` is a linear map, and in
particular commutes with negation, which makes negating the gradient before
applying the operator equal to `-applyInverse(derivative)`. -/
theorem claim_C10_inverse_linear {n : ℕ} (st : LState n) (a b : ℚ)
    (x y : Vec n) :
    multBInv st (a • x + b • y) = a • multBInv st x + b • multBInv st y ∧
    multBInv st (-x) = -multBInv st x := by
  refine ⟨?_, multBInv_neg st x⟩
  rw [multBInv_add, multBInv_smul, multBInv_smul]

/-! ## The compact forward operator `LBFGS::multB`

The C++ builds one matrix row per stored pair, oldest first.  Row `i` starts
as `m_bdiag * steps[i]`, accumulates `inner_prod(y[j], steps[i])/beta(j) * y[j]`
for `j < i`, subtracts the projections onto the previously completed rows,
and is finally normalized by `sqrt(inner_prod(steps[i], row_i))`; the result
is `m_bdiag * x + sum_i inner_prod(y[i], x)/beta(i) * y[i] - Aᵀ A x`.

Every normalized row `row_i / sqrt(inner_prod(steps[i], row_i))` occurs in
exactly one place, and there always twice (in `Aᵀ A`-type quadratics), so the
two square roots combine into a single division by
`inner_prod(steps[i], row_i)`.  The embedding therefore stores the
unnormalized row and divides once where the C++ row occurs squared, keeping
the arithmetic in `ℚ`; over the reals this is exactly the C++ computation
whenever `inner_prod(steps[i], row_i) > 0`, which holds by the curvature
precondition (claim C7). -/

/-- `sum_j inner_prod(y[j], v)/beta(j) * y[j]` over the processed entries. -/
def yTermSum {n : ℕ} (acc : List ((Vec n × Vec n) × Vec n)) (v : Vec n) : Vec n :=
  (acc.map fun q => (inner_prod q.1.2 v / inner_prod q.1.2 q.1.1) • q.1.2).sum

/-- `sum_j inner_prod(row_j, v) * row_j` over the processed entries, with the
two square-root normalizations of row `j` combined into one division by
`inner_prod(steps[j], row_j)`. -/
def rTermSum {n : ℕ} (acc : List ((Vec n × Vec n) × Vec n)) (v : Vec n) : Vec n :=
  (acc.map fun q => (inner_prod q.2 v / inner_prod q.1.1 q.2) • q.2).sum

/-- The row-construction loop of `multB`: each pair `(s, y)` gets the row
`m_bdiag * s + (earlier y contributions) - (projections onto earlier rows)`,
stored unnormalized alongside its pair. -/
def rowsAux {n : ℕ} (bdiag : ℚ) :
    List (Vec n × Vec n) → List ((Vec n × Vec n) × Vec n) →
      List ((Vec n × Vec n) × Vec n)
  | [], acc => acc
  | (s, y) :: rest, acc =>
      rowsAux bdiag rest
        (acc ++ [((s, y), bdiag • s + yTermSum acc s - rTermSum acc s)])

/-- All rows of the matrix `A` of `multB`, paired with their `(s, y)` pairs. -/
def multBRows {n : ℕ} (st : LState n) : List ((Vec n × Vec n) × Vec n) :=
  rowsAux st.bdiag st.pairs []

/-- `LBFGS::multB(x)`:
`result = m_bdiag * x + sum_i (yiTx/beta(i)) y_i - Aᵀ A x`. -/
def multB {n : ℕ} (st : LState n) (x : Vec n) : Vec n :=
  st.bdiag • x + yTermSum (multBRows st) x - rTermSum (multBRows st) x

/-- The quantities under the square root in `multB`'s row normalization:
`inner_prod(steps[i], row_i)` for each row. -/
def rowDenoms {n : ℕ} (st : LState n) : List ℚ :=
  (multBRows st).map fun q => inner_prod q.1.1 q.2

/-- The direct BFGS update unrolled as a recursion over the pairs given
newest first:
`B' x = B x + (inner_prod(y,x)/inner_prod(y,s)) y
      - (inner_prod(B s,x)/inner_prod(s,B s)) B s`. -/
def bfgsBRev {n : ℕ} (bdiag : ℚ) : List (Vec n × Vec n) → Vec n → Vec n
  | [], x => bdiag • x
  | (s, y) :: rest, x =>
      bfgsBRev bdiag rest x
        + (inner_prod y x / inner_prod y s) • y
        - (inner_prod (bfgsBRev bdiag rest s) x /
            inner_prod s (bfgsBRev bdiag rest s)) • bfgsBRev bdiag rest s

/-- Row lists as produced by the `multB` row loop: each stored row is the
base expression computed from the entries before it. -/
inductive Consistent {n : ℕ} (bdiag : ℚ) :
    List ((Vec n × Vec n) × Vec n) → Prop
  | nil : Consistent bdiag []
  | snoc (acc : List ((Vec n × Vec n) × Vec n)) (p : Vec n × Vec n)
      (hacc : Consistent bdiag acc) :
      Consistent bdiag
        (acc ++ [(p, bdiag • p.1 + yTermSum acc p.1 - rTermSum acc p.1)])

theorem yTermSum_snoc {n : ℕ} (acc : List ((Vec n × Vec n) × Vec n))
    (q : (Vec n × Vec n) × Vec n) (v : Vec n) :
    yTermSum (acc ++ [q]) v =
      yTermSum acc v + (inner_prod q.1.2 v / inner_prod q.1.2 q.1.1) • q.1.2 := by
  simp [yTermSum]

theorem rTermSum_snoc {n : ℕ} (acc : List ((Vec n × Vec n) × Vec n))
    (q : (Vec n × Vec n) × Vec n) (v : Vec n) :
    rTermSum (acc ++ [q]) v =
      rTermSum acc v + (inner_prod q.2 v / inner_prod q.1.1 q.2) • q.2 := by
  simp [rTermSum]

/-- Unrolling: the sum form of `multB` over consistent rows equals the
recursive BFGS operator over the row pairs, newest first. -/
theorem consistent_unroll {n : ℕ} {bdiag : ℚ}
    {acc : List ((Vec n × Vec n) × Vec n)} (h : Consistent bdiag acc) :
    ∀ v, bdiag • v + yTermSum acc v - rTermSum acc v =
      bfgsBRev bdiag ((acc.map Prod.fst).reverse) v := by
  induction h with
  | nil =>
      intro v
      simp [yTermSum, rTermSum, bfgsBRev]
  | snoc acc p hacc ih =>
      intro v
      rw [yTermSum_snoc, rTermSum_snoc]
      have hmap : (((acc ++ [(p, bdiag • p.1 + yTermSum acc p.1 - rTermSum acc p.1)]).map
          Prod.fst).reverse) = p :: (acc.map Prod.fst).reverse := by
        simp
      rw [hmap]
      obtain ⟨s, y⟩ := p
      show bdiag • v + (yTermSum acc v + _) - (rTermSum acc v + _) =
        bfgsBRev bdiag ((s, y) :: (acc.map Prod.fst).reverse) v
      rw [show bfgsBRev bdiag ((s, y) :: (acc.map Prod.fst).reverse) v =
        bfgsBRev bdiag (acc.map Prod.fst).reverse v
          + (inner_prod y v / inner_prod y s) • y
          - (inner_prod (bfgsBRev bdiag (acc.map Prod.fst).reverse s) v /
              inner_prod s (bfgsBRev bdiag (acc.map Prod.fst).reverse s)) •
            bfgsBRev bdiag (acc.map Prod.fst).reverse s from rfl]
      rw [← ih v, ← ih s]
      abel

theorem rowsAux_consistent {n : ℕ} (bdiag : ℚ) (pairs : List (Vec n × Vec n))
    (acc : List ((Vec n × Vec n) × Vec n)) (h : Consistent bdiag acc) :
    Consistent bdiag (rowsAux bdiag pairs acc) := by
  induction pairs generalizing acc with
  | nil => exact h
  | cons p rest ih =>
      obtain ⟨s, y⟩ := p
      exact ih _ (Consistent.snoc acc (s, y) h)

theorem rowsAux_map_fst {n : ℕ} (bdiag : ℚ) (pairs : List (Vec n × Vec n))
    (acc : List ((Vec n × Vec n) × Vec n)) :
    (rowsAux bdiag pairs acc).map Prod.fst = acc.map Prod.fst ++ pairs := by
  induction pairs generalizing acc with
  | nil => simp [rowsAux]
  | cons p rest ih =>
      obtain ⟨s, y⟩ := p
      rw [rowsAux, ih]
      simp

/-- `LBFGS::multB` computes the recursive BFGS operator over the stored
pairs, newest first. -/
theorem multB_eq_bfgsBRev {n : ℕ} (st : LState n) (x : Vec n) :
    multB st x = bfgsBRev st.bdiag st.pairs.reverse x := by
  have hcons : Consistent st.bdiag (multBRows st) :=
    rowsAux_consistent st.bdiag st.pairs [] Consistent.nil
  have h := consistent_unroll hcons x
  have hfst : (multBRows st).map Prod.fst = st.pairs := by
    simpa [multBRows] using rowsAux_map_fst st.bdiag st.pairs []
  rw [multB, h, hfst]

/-! ## Algebraic properties of the forward operator -/

theorem ip_comm {n : ℕ} (x y : Vec n) : inner_prod x y = inner_prod y x := by
  unfold inner_prod
  exact Finset.sum_congr rfl fun i _ => mul_comm _ _

theorem ip_add_right {n : ℕ} (a x y : Vec n) :
    inner_prod a (x + y) = inner_prod a x + inner_prod a y := by
  unfold inner_prod
  rw [← Finset.sum_add_distrib]
  exact Finset.sum_congr rfl fun i _ => by simp [mul_add]

theorem ip_smul_right {n : ℕ} (a x : Vec n) (c : ℚ) :
    inner_prod a (c • x) = c * inner_prod a x := by
  unfold inner_prod
  rw [Finset.mul_sum]
  exact Finset.sum_congr rfl fun i _ => by simp [smul_eq_mul]; ring

theorem ip_sub_right {n : ℕ} (a x y : Vec n) :
    inner_prod a (x - y) = inner_prod a x - inner_prod a y := by
  unfold inner_prod
  rw [← Finset.sum_sub_distrib]
  exact Finset.sum_congr rfl fun i _ => by simp [mul_sub]

theorem ip_add_left {n : ℕ} (x y a : Vec n) :
    inner_prod (x + y) a = inner_prod x a + inner_prod y a := by
  rw [ip_comm, ip_add_right, ip_comm a x, ip_comm a y]

theorem ip_smul_left {n : ℕ} (x a : Vec n) (c : ℚ) :
    inner_prod (c • x) a = c * inner_prod x a := by
  rw [ip_comm, ip_smul_right, ip_comm a x]

theorem ip_sub_left {n : ℕ} (x y a : Vec n) :
    inner_prod (x - y) a = inner_prod x a - inner_prod y a := by
  rw [ip_comm, ip_sub_right, ip_comm a x, ip_comm a y]

theorem ip_zero_right {n : ℕ} (a : Vec n) : inner_prod a 0 = 0 := by
  simp [inner_prod]

theorem ip_self_nonneg {n : ℕ} (x : Vec n) : 0 ≤ inner_prod x x :=
  Finset.sum_nonneg fun i _ => mul_self_nonneg (x i)

theorem ip_self_pos {n : ℕ} (x : Vec n) (hx : x ≠ 0) : 0 < inner_prod x x := by
  rcases lt_or_eq_of_le (ip_self_nonneg x) with h | h
  · exact h
  · exfalso
    apply hx
    funext i
    have hnn : ∀ j ∈ Finset.univ, 0 ≤ x j * x j := fun j _ => mul_self_nonneg _
    have hz := (Finset.sum_eq_zero_iff_of_nonneg hnn).mp h.symm i (Finset.mem_univ i)
    exact mul_self_eq_zero.mp hz

theorem ne_zero_of_ip_pos {n : ℕ} {y s : Vec n}
    (h : 0 < inner_prod y s) : s ≠ 0 := by
  intro hs
  rw [hs, ip_zero_right] at h
  exact lt_irrefl 0 h

theorem bfgsBRev_add {n : ℕ} (bdiag : ℚ) (rev : List (Vec n × Vec n))
    (x y : Vec n) :
    bfgsBRev bdiag rev (x + y) = bfgsBRev bdiag rev x + bfgsBRev bdiag rev y := by
  induction rev generalizing x y with
  | nil => simp [bfgsBRev, smul_add]
  | cons p rest ih =>
      obtain ⟨s, y0⟩ := p
      simp only [bfgsBRev, ih, ip_add_right, add_div, add_smul]
      abel

theorem bfgsBRev_smul {n : ℕ} (bdiag : ℚ) (rev : List (Vec n × Vec n))
    (c : ℚ) (x : Vec n) :
    bfgsBRev bdiag rev (c • x) = c • bfgsBRev bdiag rev x := by
  induction rev generalizing x with
  | nil =>
      simp [bfgsBRev, smul_smul, mul_comm]
  | cons p rest ih =>
      obtain ⟨s, y0⟩ := p
      simp only [bfgsBRev, ih, ip_smul_right, mul_div_assoc, mul_smul]
      rw [smul_sub, smul_add]

theorem bfgsBRev_sub_comb {n : ℕ} (bdiag : ℚ) (rev : List (Vec n × Vec n))
    (c d : ℚ) (u w : Vec n) :
    bfgsBRev bdiag rev (c • u - d • w) =
      c • bfgsBRev bdiag rev u - d • bfgsBRev bdiag rev w := by
  rw [sub_eq_add_neg, ← neg_smul, bfgsBRev_add, bfgsBRev_smul, bfgsBRev_smul,
    neg_smul, ← sub_eq_add_neg]

/-- The forward operator is symmetric as a bilinear form. -/
theorem bfgsBRev_sym {n : ℕ} (bdiag : ℚ) (rev : List (Vec n × Vec n)) :
    ∀ x z, inner_prod (bfgsBRev bdiag rev x) z
      = inner_prod x (bfgsBRev bdiag rev z) := by
  induction rev with
  | nil =>
      intro x z
      simp only [bfgsBRev, ip_smul_left, ip_smul_right]
  | cons p rest ih =>
      intro x z
      obtain ⟨s, y0⟩ := p
      simp only [bfgsBRev, ip_add_left, ip_sub_left, ip_smul_left,
        ip_add_right, ip_sub_right, ip_smul_right]
      rw [ih x z]
      rw [show inner_prod x y0 = inner_prod y0 x from ip_comm _ _]
      rw [show inner_prod x (bfgsBRev bdiag rest s) =
        inner_prod (bfgsBRev bdiag rest s) x from ip_comm _ _]
      ring

theorem ip_zero_left {n : ℕ} (a : Vec n) : inner_prod 0 a = 0 := by
  simp [inner_prod]

/-- Cauchy–Schwarz for the bilinear form of a positive definite `bfgsBRev`,
with the equality case identified. -/
theorem bfgsBRev_cs {n : ℕ} (bdiag : ℚ) (rest : List (Vec n × Vec n))
    (hpd : ∀ w, w ≠ 0 → 0 < inner_prod w (bfgsBRev bdiag rest w))
    (s v : Vec n) (hs : s ≠ 0) :
    0 ≤ inner_prod s (bfgsBRev bdiag rest s) * inner_prod v (bfgsBRev bdiag rest v)
        - inner_prod (bfgsBRev bdiag rest s) v * inner_prod (bfgsBRev bdiag rest s) v ∧
    (inner_prod s (bfgsBRev bdiag rest s) * inner_prod v (bfgsBRev bdiag rest v)
        - inner_prod (bfgsBRev bdiag rest s) v * inner_prod (bfgsBRev bdiag rest s) v = 0 →
      inner_prod s (bfgsBRev bdiag rest s) • v
        = inner_prod (bfgsBRev bdiag rest s) v • s) := by
  have hφ : 0 < inner_prod s (bfgsBRev bdiag rest s) := hpd s hs
  set φ := inner_prod s (bfgsBRev bdiag rest s) with hφdef
  set C := inner_prod (bfgsBRev bdiag rest s) v with hCdef
  set Q := inner_prod v (bfgsBRev bdiag rest v) with hQdef
  have hw : inner_prod (φ • v - C • s) (bfgsBRev bdiag rest (φ • v - C • s)) =
      φ * (φ * Q - C * C) := by
    rw [bfgsBRev_sub_comb]
    simp only [ip_sub_left, ip_sub_right, ip_smul_left, ip_smul_right]
    rw [show inner_prod v (bfgsBRev bdiag rest s) = C from by rw [ip_comm]]
    rw [show inner_prod s (bfgsBRev bdiag rest v) = C from by
      rw [← bfgsBRev_sym bdiag rest s v]]
    rw [← hφdef, ← hQdef]
    ring
  by_cases hw0 : φ • v - C • s = 0
  · rw [hw0, ip_zero_left] at hw
    have hz : φ * Q - C * C = 0 :=
      (mul_eq_zero.mp hw.symm).resolve_left (ne_of_gt hφ)
    exact ⟨le_of_eq hz.symm, fun _ => sub_eq_zero.mp hw0⟩
  · have hpos := hpd _ hw0
    rw [hw] at hpos
    have hlt : 0 < φ * Q - C * C := by
      rcases mul_pos_iff.mp hpos with ⟨_, h⟩ | ⟨h, _⟩
      · exact h
      · exact absurd hφ (not_lt.mpr (le_of_lt h))
    exact ⟨le_of_lt hlt, fun h0 => absurd (h0 ▸ hlt) (lt_irrefl 0)⟩

/-- Positive definiteness of the forward operator under the curvature
precondition: the inductive heart of claims C6 and C7. -/
theorem bfgsBRev_pd {n : ℕ} (bdiag : ℚ) (rev : List (Vec n × Vec n))
    (hb : 0 < bdiag) (hc : ∀ p ∈ rev, 0 < inner_prod p.2 p.1) :
    ∀ v, v ≠ 0 → 0 < inner_prod v (bfgsBRev bdiag rev v) := by
  induction rev with
  | nil =>
      intro v hv
      simp only [bfgsBRev, ip_smul_right]
      exact mul_pos hb (ip_self_pos v hv)
  | cons p rest ih =>
      intro v hv
      obtain ⟨s, y0⟩ := p
      have hβ : 0 < inner_prod y0 s := hc (s, y0) (List.mem_cons_self _ _)
      have hs : s ≠ 0 := ne_zero_of_ip_pos hβ
      have hpd : ∀ w, w ≠ 0 → 0 < inner_prod w (bfgsBRev bdiag rest w) :=
        ih fun q hq => hc q (List.mem_cons_of_mem _ hq)
      have hφ : 0 < inner_prod s (bfgsBRev bdiag rest s) := hpd s hs
      obtain ⟨hcs, heqc⟩ := bfgsBRev_cs bdiag rest hpd s v hs
      have hgoal : inner_prod v (bfgsBRev bdiag ((s, y0) :: rest) v) =
          inner_prod v (bfgsBRev bdiag rest v)
            + inner_prod y0 v * inner_prod y0 v / inner_prod y0 s
            - inner_prod (bfgsBRev bdiag rest s) v
                * inner_prod (bfgsBRev bdiag rest s) v
                / inner_prod s (bfgsBRev bdiag rest s) := by
        simp only [bfgsBRev, ip_add_right, ip_sub_right, ip_smul_right]
        rw [show inner_prod v y0 = inner_prod y0 v from ip_comm _ _]
        rw [show inner_prod v (bfgsBRev bdiag rest s) =
          inner_prod (bfgsBRev bdiag rest s) v from ip_comm _ _]
        ring
      rw [hgoal]
      set Q := inner_prod v (bfgsBRev bdiag rest v) with hQdef
      set A := inner_prod y0 v with hAdef
      set C := inner_prod (bfgsBRev bdiag rest s) v with hCdef
      set φ := inner_prod s (bfgsBRev bdiag rest s) with hφdef
      set β := inner_prod y0 s with hβdef
      rcases lt_or_eq_of_le hcs with hlt | heq0
      · have hD2 : C * C / φ < Q := by
          rw [div_lt_iff₀ hφ]
          nlinarith
        have hD1 : 0 ≤ A * A / β := div_nonneg (mul_self_nonneg A) (le_of_lt hβ)
        linarith
      · have hvs : φ • v = C • s := heqc heq0.symm
        have hCne : C ≠ 0 := by
          intro hC0
          rw [hC0, zero_smul] at hvs
          rcases smul_eq_zero.mp hvs with h | h
          · exact absurd h (ne_of_gt hφ)
          · exact hv h
        have hAval : φ * A = C * β := by
          have h1 := congrArg (fun w => inner_prod y0 w) hvs
          simpa only [ip_smul_right, ← hAdef, ← hβdef] using h1
        have hAne : A ≠ 0 := by
          intro hA0
          rw [hA0, mul_zero] at hAval
          rcases mul_eq_zero.mp hAval.symm with h | h
          · exact hCne h
          · exact absurd h (ne_of_gt hβ)
        have hQval : Q = C * C / φ := by
          rw [eq_div_iff (ne_of_gt hφ)]
          nlinarith
        have hfin : Q + A * A / β - C * C / φ = A * A / β := by
          rw [hQval]
          ring
        rw [hfin]
        exact div_pos (mul_self_pos.mpr hAne) hβ

theorem bfgsBRev_sub_smul {n : ℕ} (bdiag : ℚ) (rev : List (Vec n × Vec n))
    (c : ℚ) (u w : Vec n) :
    bfgsBRev bdiag rev (u - c • w) =
      bfgsBRev bdiag rev u - c • bfgsBRev bdiag rev w := by
  have h := bfgsBRev_sub_comb bdiag rev 1 c u w
  simpa using h

/-- The forward compact operator and the two-loop inverse operator are exact
mutual inverses for any history of positive-curvature pairs. -/
theorem bfgsB_twoLoop_inverse {n : ℕ} (bdiag : ℚ) (rev : List (Vec n × Vec n))
    (hb : 0 < bdiag) (hc : ∀ p ∈ rev, 0 < inner_prod p.2 p.1) :
    (∀ x, bfgsBRev bdiag rev (twoLoopRec bdiag rev x) = x) ∧
    (∀ x, twoLoopRec bdiag rev (bfgsBRev bdiag rev x) = x) := by
  have hbne : bdiag ≠ 0 := ne_of_gt hb
  induction rev with
  | nil =>
      constructor
      · intro x
        funext i
        simp only [bfgsBRev, twoLoopRec, Pi.smul_apply, smul_eq_mul]
        field_simp
      · intro x
        funext i
        simp only [bfgsBRev, twoLoopRec, Pi.smul_apply, smul_eq_mul]
        field_simp
  | cons p rest ih =>
      obtain ⟨s, y0⟩ := p
      have hβ : 0 < inner_prod y0 s := hc (s, y0) (List.mem_cons_self _ _)
      have hβne : inner_prod y0 s ≠ 0 := ne_of_gt hβ
      have hs : s ≠ 0 := ne_zero_of_ip_pos hβ
      have hrest : ∀ q ∈ rest, 0 < inner_prod q.2 q.1 := fun q hq =>
        hc q (List.mem_cons_of_mem _ hq)
      obtain ⟨ihL, ihR⟩ := ih hrest
      have hpd := bfgsBRev_pd bdiag rest hb hrest
      have hφ : 0 < inner_prod s (bfgsBRev bdiag rest s) := hpd s hs
      have hφne : inner_prod s (bfgsBRev bdiag rest s) ≠ 0 := ne_of_gt hφ
      constructor
      · intro x
        simp only [twoLoopRec, bfgsBRev]
        set a := 1 / inner_prod y0 s * inner_prod s x with hadef
        set z := twoLoopRec bdiag rest (x - a • y0) with hzdef
        set c := a - 1 / inner_prod y0 s * inner_prod y0 z with hcdef
        have hBz : bfgsBRev bdiag rest z = x - a • y0 := ihL _
        have hArg : bfgsBRev bdiag rest (z + c • s) =
            x - a • y0 + c • bfgsBRev bdiag rest s := by
          rw [bfgsBRev_add, bfgsBRev_smul, hBz]
        have hBsz : inner_prod (bfgsBRev bdiag rest s) z = 0 := by
          rw [bfgsBRev_sym bdiag rest s z, hBz, ip_sub_right, ip_smul_right]
          rw [show inner_prod s y0 = inner_prod y0 s from ip_comm _ _, hadef]
          field_simp
        have hBsArg : inner_prod (bfgsBRev bdiag rest s) (z + c • s) =
            c * inner_prod s (bfgsBRev bdiag rest s) := by
          rw [ip_add_right, hBsz, ip_smul_right, zero_add]
          rw [show inner_prod (bfgsBRev bdiag rest s) s =
            inner_prod s (bfgsBRev bdiag rest s) from ip_comm _ _]
        have hy0Arg : inner_prod y0 (z + c • s) =
            inner_prod y0 z + c * inner_prod y0 s := by
          rw [ip_add_right, ip_smul_right]
        rw [hArg, hBsArg, hy0Arg]
        rw [mul_div_assoc, div_self hφne, mul_one]
        rw [add_div, mul_div_cancel_right₀ _ hβne]
        rw [show inner_prod y0 z / inner_prod y0 s + c = a from by
          rw [hcdef]; ring]
        abel
      · intro x
        simp only [twoLoopRec, bfgsBRev]
        set W := bfgsBRev bdiag rest x
          + (inner_prod y0 x / inner_prod y0 s) • y0
          - (inner_prod (bfgsBRev bdiag rest s) x /
              inner_prod s (bfgsBRev bdiag rest s)) • bfgsBRev bdiag rest s
          with hWdef
        have hsW : inner_prod s W = inner_prod y0 x := by
          rw [hWdef, ip_sub_right, ip_add_right, ip_smul_right, ip_smul_right]
          rw [show inner_prod s (bfgsBRev bdiag rest x) =
            inner_prod (bfgsBRev bdiag rest s) x from by
              rw [← bfgsBRev_sym bdiag rest s x]]
          rw [show inner_prod s y0 = inner_prod y0 s from ip_comm _ _]
          field_simp
        have hq : W - (1 / inner_prod y0 s * inner_prod s W) • y0 =
            bfgsBRev bdiag rest
              (x - (inner_prod (bfgsBRev bdiag rest s) x /
                inner_prod s (bfgsBRev bdiag rest s)) • s) := by
          rw [bfgsBRev_sub_smul, hsW, hWdef]
          rw [show 1 / inner_prod y0 s * inner_prod y0 x =
            inner_prod y0 x / inner_prod y0 s from by ring]
          abel
        have hz2 : twoLoopRec bdiag rest
            (W - (1 / inner_prod y0 s * inner_prod s W) • y0) =
            x - (inner_prod (bfgsBRev bdiag rest s) x /
              inner_prod s (bfgsBRev bdiag rest s)) • s := by
          rw [hq]
          exact ihR _
        rw [hz2, hsW]
        rw [ip_sub_right, ip_smul_right]
        rw [show 1 / inner_prod y0 s * inner_prod y0 x
          - 1 / inner_prod y0 s * (inner_prod y0 x
            - inner_prod (bfgsBRev bdiag rest s) x /
                inner_prod s (bfgsBRev bdiag rest s) * inner_prod y0 s) =
          inner_prod (bfgsBRev bdiag rest s) x /
            inner_prod s (bfgsBRev bdiag rest s) from by
          field_simp
          ring]
        abel

/-! ## Positivity of every denominator (claim C7) and exact inversion (C6) -/

/-- Every stored row denominator `inner_prod(steps[i], row_i)` is positive
when all row pairs have positive curvature: each row is the forward operator
of the earlier pairs applied to its own step. -/
theorem consistent_rows_denoms_pos {n : ℕ} (bdiag : ℚ) (hb : 0 < bdiag)
    (acc : List ((Vec n × Vec n) × Vec n)) (h : Consistent bdiag acc)
    (hc : ∀ q ∈ acc, 0 < inner_prod q.1.2 q.1.1) :
    ∀ q ∈ acc, 0 < inner_prod q.1.1 q.2 := by
  induction h with
  | nil =>
      intro q hq
      simp at hq
  | snoc acc p hacc ih =>
      intro q hq
      rcases List.mem_append.mp hq with hin | hnew
      · exact ih (fun r hr => hc r (List.mem_append_left _ hr)) q hin
      · have hq2 : q = (p, bdiag • p.1 + yTermSum acc p.1 - rTermSum acc p.1) := by
          simpa using hnew
        subst hq2
        have hrow := consistent_unroll hacc p.1
        have hcurv : 0 < inner_prod p.2 p.1 := by
          have := hc _ (List.mem_append_right _ (List.mem_singleton.mpr rfl))
          simpa using this
        have hp1 : p.1 ≠ 0 := ne_zero_of_ip_pos hcurv
        have hcprev : ∀ r ∈ (acc.map Prod.fst).reverse, 0 < inner_prod r.2 r.1 := by
          intro r hr
          rw [List.mem_reverse] at hr
          obtain ⟨q2, hq2mem, hq2eq⟩ := List.mem_map.mp hr
          rw [← hq2eq]
          exact hc q2 (List.mem_append_left _ hq2mem)
        show 0 < inner_prod p.1 (bdiag • p.1 + yTermSum acc p.1 - rTermSum acc p.1)
        rw [hrow]
        exact bfgsBRev_pd bdiag _ hb hcprev p.1 hp1

theorem zip_tail_tail {α β : Type} (S : List α) (G : List β) :
    S.tail.zip G.tail = (S.zip G).tail := by
  cases S <;> cases G <;> simp

/-- The state invariant maintained by `updateHist`: positive `m_bdiag`,
positive threshold, aligned histories, every stored pair above the
threshold. -/
def HistInv {n : ℕ} (st : LState n) : Prop :=
  0 < st.bdiag ∧ 0 < st.updThres ∧
    st.steps.length = st.gradientDifferences.length ∧
    ∀ p ∈ st.pairs, st.updThres < inner_prod p.2 p.1

theorem updateHist_histInv {n : ℕ} (st : LState n) (y s : Vec n)
    (h : HistInv st) : HistInv (updateHist st y s) := by
  obtain ⟨hb, hθ, hlen, hpairs⟩ := h
  by_cases hys : st.updThres < inner_prod y s
  · have hyne : y ≠ 0 := by
      intro hy0
      rw [hy0, ip_zero_left] at hys
      exact absurd (lt_trans hθ hys) (lt_irrefl 0)
    have hbd : 0 < inner_prod y y / inner_prod y s :=
      div_pos (ip_self_pos y hyne) (lt_trans hθ hys)
    by_cases hcap : st.numHist ≤ st.steps.length
    · rw [updateHist_of_lt_cap st y s hys hcap]
      refine ⟨hbd, hθ, by simp only [List.length_append, List.length_tail,
        List.length_singleton]; omega, ?_⟩
      intro p hp
      simp only [LState.pairs] at hp
      rw [List.zip_append (by simp only [List.length_tail]; omega)] at hp
      rcases List.mem_append.mp hp with hold | hnew
      · rw [zip_tail_tail] at hold
        exact hpairs p (List.mem_of_mem_tail hold)
      · have : p = (s, y) := by simpa using hnew
        rw [this]
        exact hys
    · rw [updateHist_of_lt_nocap st y s hys hcap]
      refine ⟨hbd, hθ, by simp only [List.length_append,
        List.length_singleton]; omega, ?_⟩
      intro p hp
      simp only [LState.pairs] at hp
      rw [List.zip_append hlen] at hp
      rcases List.mem_append.mp hp with hold | hnew
      · exact hpairs p hold
      · have : p = (s, y) := by simpa using hnew
        rw [this]
        exact hys
  · rw [updateHist_of_le st y s (not_lt.mp hys)]
    exact ⟨hb, hθ, hlen, hpairs⟩

theorem runHist_histInv {n : ℕ} (inputs : List (Vec n × Vec n)) (st : LState n)
    (h : HistInv st) : HistInv (runHist st inputs) := by
  induction inputs generalizing st with
  | nil => exact h
  | cons p rest ih => exact ih _ (updateHist_histInv st p.1 p.2 h)

theorem initModel_histInv {n : ℕ} (m : ℕ) : HistInv (initModel n m) := by
  refine ⟨by norm_num [initModel], by norm_num [initModel], by simp [initModel], ?_⟩
  intro p hp
  simp [initModel, LState.pairs] at hp

/-- C7: in any state reachable from `initModel` by `updateHist` calls, every
denominator of `multB` and `multBInv` is strictly positive: `m_bdiag`, every
curvature `inner_prod(y_i, s_i)` (the `beta(i)` of `multB` and the inverted
`rho(i)` denominators of `multBInv`), and every row-normalization quantity
`inner_prod(steps[i], row_i)` under the square root in `multB`. -/
theorem claim_C7_denominators_positive {n : ℕ} (m : ℕ)
    (inputs : List (Vec n × Vec n)) :
    0 < (runHist (initModel n m) inputs).bdiag ∧
    (∀ p ∈ (runHist (initModel n m) inputs).pairs, 0 < inner_prod p.2 p.1) ∧
    (∀ d ∈ rowDenoms (runHist (initModel n m) inputs), 0 < d) := by
  obtain ⟨hb, hθ, hlen, hpairs⟩ :=
    runHist_histInv inputs (initModel n m) (initModel_histInv m)
  refine ⟨hb, fun p hp => lt_trans hθ (hpairs p hp), ?_⟩
  intro d hd
  obtain ⟨q, hqmem, hqeq⟩ := List.mem_map.mp hd
  rw [← hqeq]
  have hcons : Consistent (runHist (initModel n m) inputs).bdiag
      (multBRows (runHist (initModel n m) inputs)) :=
    rowsAux_consistent _ _ [] Consistent.nil
  refine consistent_rows_denoms_pos _ hb _ hcons ?_ q hqmem
  intro r hr
  have hfst : (multBRows (runHist (initModel n m) inputs)).map Prod.fst =
      (runHist (initModel n m) inputs).pairs := by
    simpa [multBRows] using
      rowsAux_map_fst (runHist (initModel n m) inputs).bdiag
        (runHist (initModel n m) inputs).pairs []
  have hr1 : r.1 ∈ (runHist (initModel n m) inputs).pairs := by
    rw [← hfst]
    exact List.mem_map_of_mem Prod.fst hr
  exact lt_trans hθ (hpairs r.1 hr1)

/-- C6: for a history of positive-curvature pairs, `multB` and `multBInv`
are exact mutual inverses; in particular
`applyForward(applyInverse(x)) = x` in exact arithmetic. -/
theorem claim_C6_forward_inverse {n : ℕ} (st : LState n) (x : Vec n)
    (hb : 0 < st.bdiag)
    (hc : ∀ p ∈ st.pairs, 0 < inner_prod p.2 p.1) :
    multB st (multBInv st x) = x := by
  rw [multBInv, multBInvP_eq_twoLoopRec, multB_eq_bfgsBRev]
  have hcrev : ∀ p ∈ st.pairs.reverse, 0 < inner_prod p.2 p.1 := fun p hp =>
    hc p (List.mem_reverse.mp hp)
  exact (bfgsB_twoLoop_inverse st.bdiag st.pairs.reverse hb hcrev).1 x

/-! ## Box-constrained direction: `LBFGS::getBoxConstrainedDirection`

The bound vectors `l`, `u` are IEEE doubles that may be `-inf`/`+inf` (the
unconstrained case of the specification); `EBound` models exactly the values
a bound can take.  The finite quantities (`x`, gradients, steps, `alpha`)
stay rational; the extended arithmetic below covers precisely the operations
the source applies to bounds: subtraction of a finite value, division by a
nonzero finite value (the loops skip zero divisors), comparison, and
`min` against a finite running `alpha` (where `min(alpha, +inf) = alpha`). -/

/-- A box bound: `-inf`, a finite value, or `+inf`. -/
inductive EBound where
  | ninf : EBound
  | fin (q : ℚ) : EBound
  | pinf : EBound

/-- `b < q` for a bound `b` and a finite `q`. -/
def EBound.ltq : EBound → ℚ → Prop
  | .ninf, _ => True
  | .fin p, q => p < q
  | .pinf, _ => False

/-- `b > q` for a bound `b` and a finite `q`. -/
def EBound.gtq : EBound → ℚ → Prop
  | .ninf, _ => False
  | .fin p, q => q < p
  | .pinf, _ => True

instance (b : EBound) (q : ℚ) : Decidable (EBound.ltq b q) :=
  match b with
  | .ninf => isTrue trivial
  | .fin p => inferInstanceAs (Decidable (p < q))
  | .pinf => isFalse fun h => h

instance (b : EBound) (q : ℚ) : Decidable (EBound.gtq b q) :=
  match b with
  | .ninf => isFalse fun h => h
  | .fin p => inferInstanceAs (Decidable (q < p))
  | .pinf => isTrue trivial

/-- `b - q` for a bound `b` and a finite `q`. -/
def EBound.subq : EBound → ℚ → EBound
  | .ninf, _ => .ninf
  | .fin p, q => .fin (p - q)
  | .pinf, _ => .pinf

/-- `b / c` for a bound `b` and a nonzero finite `c` (the ray-clipping loops
skip coordinates with a zero direction component before dividing). -/
def EBound.divq : EBound → ℚ → EBound
  | .ninf, c => if c < 0 then .pinf else .ninf
  | .fin p, c => .fin (p / c)
  | .pinf, c => if c < 0 then .ninf else .pinf

/-- `min(alpha, t)` for finite `alpha`: `+inf` (or `-inf`, which the guard
`t > 0` already excludes) leaves `alpha` unchanged, as IEEE `min` would. -/
def minq (a : ℚ) : EBound → ℚ
  | .fin p => min a p
  | _ => a

/-- The ray-clipping loop of `getBoxConstrainedDirection` (used once from `x`
along `cauchy`, once from `x + cauchy` along `dir`): over the active
coordinates with nonzero direction component, clip `alpha` (starting at 1) by
every positive candidate `(l(i) - x0(i))/d(i)` and `(u(i) - x0(i))/d(i)`. -/
def rayClip {n : ℕ} (x0 d : Vec n) (l u : Fin n → EBound)
    (act : Fin n → Prop) [DecidablePred act] : ℚ :=
  (List.finRange n).foldl
    (fun alpha i =>
      if act i ∧ ¬ d i = 0 then
        let la := ((l i).subq (x0 i)).divq (d i)
        let ua := ((u i).subq (x0 i)).divq (d i)
        let alpha1 := if la.gtq 0 then minq alpha la else alpha
        if ua.gtq 0 then minq alpha1 ua else alpha1
      else alpha)
    1

/-- `eps = 1.e-13` of `getBoxConstrainedDirection`. -/
def boxEps : ℚ := 1 / 10 ^ 13

/-- The partition step of `getBoxConstrainedDirection`: coordinate `i` is
immovable (inactive) when its steepest-descent component `p0(i) = -g(i)`
points across a bound that is within `eps` of `x(i)`. -/
def inactiveAt {n : ℕ} (x g : Vec n) (l u : Fin n → EBound) (i : Fin n) :
    Prop :=
  ((l i).gtq (x i - boxEps) ∧ -g i < 0) ∨
    ((u i).ltq (x i + boxEps) ∧ 0 < -g i)

instance {n : ℕ} (x g : Vec n) (l u : Fin n → EBound) (i : Fin n) :
    Decidable (inactiveAt x g l u i) := by
  unfold inactiveAt
  infer_instance

/-- `p0`: the movable search direction, `-m_derivative` with the inactive
coordinates clamped to zero. -/
def boxP0 {n : ℕ} (x g : Vec n) (l u : Fin n → EBound) : Vec n :=
  fun i => if inactiveAt x g l u i then 0 else -g i

/-- `LBFGS::getBoxConstrainedDirection(searchDirection, l, u)` with
`x = m_best.point` and `g = m_derivative`: quasi-Newton trial step with
feasibility check, else clipped Cauchy step, else dogleg step. -/
def getBoxConstrainedDirection {n : ℕ} (st : LState n) (x g : Vec n)
    (l u : Fin n → EBound) : Vec n :=
  let p0 := boxP0 x g l u
  let step0 := multBInv st p0
  let step : Vec n := fun i => if inactiveAt x g l u i then 0 else step0 i
  if ∀ i, ¬ inactiveAt x g l u i →
      ¬ (l i).gtq (x i - boxEps + step i) ∧
        ¬ (u i).ltq (x i + boxEps + step i) then
    step
  else
    let Bp0 := multB st p0
    let cauchy : Vec n := fun i => p0 i / inner_prod p0 Bp0
    let alpha := rayClip x cauchy l u fun i => ¬ inactiveAt x g l u i
    if alpha < 1 then alpha • cauchy
    else
      let point := x + cauchy
      let dir := step - cauchy
      let alpha2 := rayClip point dir l u fun i => ¬ inactiveAt x g l u i
      cauchy + alpha2 • dir

/-- C5: with every lower bound `-inf` and every upper bound `+inf`, the
box-constrained computer returns exactly the unconstrained direction
`multBInv(-g)`. -/
theorem claim_C5_unbounded_reduces {n : ℕ} (st : LState n) (x g : Vec n) :
    getBoxConstrainedDirection st x g (fun _ => EBound.ninf)
        (fun _ => EBound.pinf) =
      unconstrainedSearchDirection st g := by
  have hinact : ∀ i, ¬ inactiveAt x g (fun _ => EBound.ninf)
      (fun _ => EBound.pinf) i := by
    intro i h
    rcases h with ⟨h1, _⟩ | ⟨h1, _⟩
    · exact h1
    · exact h1
  have hp0 : boxP0 x g (fun _ => EBound.ninf) (fun _ => EBound.pinf) = -g := by
    funext i
    simp [boxP0, hinact i]
  simp only [getBoxConstrainedDirection, hp0]
  rw [if_pos (fun i _ => ⟨fun hF => hF, fun hF => hF⟩)]
  funext i
  rw [if_neg (hinact i)]
  rfl

/-- C9: a coordinate classified inactive by the partition step receives
exactly zero in the returned direction, in all three terminal branches. -/
theorem claim_C9_inactive_gets_zero {n : ℕ} (st : LState n) (x g : Vec n)
    (l u : Fin n → EBound) (i : Fin n) (h : inactiveAt x g l u i) :
    getBoxConstrainedDirection st x g l u i = 0 := by
  simp only [getBoxConstrainedDirection]
  split
  · simp [h]
  · have hp0 : boxP0 x g l u i = 0 := by simp [boxP0, h]
    split
    · simp [Pi.smul_apply, smul_eq_mul, hp0]
    · simp [Pi.smul_apply, Pi.add_apply, Pi.sub_apply, smul_eq_mul, hp0, h]

/-- C1 (failing input): with empty history (`m_bdiag = 1`), `x = [0]`,
`g = [-2]`, `l = [-10]`, `u = [1/2]` (so `l < u` and `x` is strictly inside
the box), the box-constrained computer reaches the dogleg branch: the Cauchy
step `1/2` lands exactly on the upper bound, the dogleg ray-clipping rejects
the candidate `alpha = 0` because of the strict `> 0` test, and the full
(infeasible) quasi-Newton step `2` is returned, so `x + direction = 2`
exceeds `u = 1/2` by far more than `eps` — violating the feasibility
invariant (and the `isFeasible` runtime assertion of
`computeSearchDirection`). -/
theorem claim_C1_feasibility_violated :
    getBoxConstrainedDirection (initModel 1 1) (fun _ => 0) (fun _ => -2)
        (fun _ => EBound.fin (-10)) (fun _ => EBound.fin (1 / 2)) =
      (fun _ => 2) ∧
    (-10 : ℚ) < 1 / 2 ∧ (-10 : ℚ) ≤ 0 ∧ (0 : ℚ) ≤ 1 / 2 ∧
    (1 / 2 : ℚ) + boxEps < 0 + 2 := by
  have hinact : ∀ i : Fin 1, ¬ inactiveAt (fun _ => 0) (fun _ => -2)
      (fun _ => EBound.fin (-10)) (fun _ => EBound.fin (1 / 2)) i := by
    intro i h
    rcases h with ⟨h1, _⟩ | ⟨h1, _⟩
    · revert h1
      norm_num [EBound.gtq, boxEps]
    · revert h1
      norm_num [EBound.ltq, boxEps]
  have hp0 : boxP0 (fun _ => 0 : Vec 1) (fun _ => -2)
      (fun _ => EBound.fin (-10))
      (fun _ => EBound.fin (1 / 2)) = fun _ => (2 : ℚ) := by
    funext i
    simp only [boxP0, if_neg (hinact i)]
    norm_num
  have hstep : multBInv (initModel 1 1) (fun _ => (2 : ℚ)) = fun _ => (2 : ℚ) := by
    funext i
    simp [multBInv, multBInvP, LState.pairs, initModel, bwdAux, fwdAux]
  have hB : multB (initModel 1 1) (fun _ => (2 : ℚ)) = fun _ => (2 : ℚ) := by
    funext i
    simp [multB, multBRows, rowsAux, yTermSum, rTermSum, LState.pairs,
      initModel]
  have hip : inner_prod (fun _ => (2 : ℚ) : Vec 1) (fun _ => (2 : ℚ)) = 4 := by
    norm_num [inner_prod, Fin.sum_univ_one]
  have hfr : List.finRange 1 = [(0 : Fin 1)] := rfl
  refine ⟨?_, by norm_num, by norm_num, by norm_num, by norm_num [boxEps]⟩
  funext i
  simp only [getBoxConstrainedDirection, hp0, hstep, hB, hip]
  split
  · next h =>
      exfalso
      have h2 := (h 0 (hinact 0)).2
      apply h2
      simp only [if_neg (hinact 0)]
      norm_num [EBound.ltq, boxEps]
  · norm_num [rayClip, hfr, minq, EBound.subq, EBound.divq, EBound.gtq,
      EBound.ltq, hinact, boxEps, Pi.add_apply, Pi.sub_apply, Pi.smul_apply,
      smul_eq_mul]

/-! ## Concrete instantiations of the conditional claims -/

theorem claim_C2_witness :
    ((⟨10, 1 / 10 ^ 10, 2, [fun _ => 1], [fun _ => 2]⟩ : LState 1).pairs.length = 1 ∨
      (⟨10, 1 / 10 ^ 10, 2, [fun _ => 1], [fun _ => 2]⟩ : LState 1).pairs.length = 2 ∨
      (⟨10, 1 / 10 ^ 10, 2, [fun _ => 1], [fun _ => 2]⟩ : LState 1).pairs.length = 3) ∧
    (∀ p ∈ (⟨10, 1 / 10 ^ 10, 2, [fun _ => 1], [fun _ => 2]⟩ : LState 1).pairs,
      0 < inner_prod p.2 p.1) ∧
    multBInv (⟨10, 1 / 10 ^ 10, 2, [fun _ => 1], [fun _ => 2]⟩ : LState 1)
        (fun _ => 5) =
      (denseHInv (⟨10, 1 / 10 ^ 10, 2, [fun _ => 1], [fun _ => 2]⟩ : LState 1).bdiag
        (⟨10, 1 / 10 ^ 10, 2, [fun _ => 1], [fun _ => 2]⟩ : LState 1).pairs).mulVec
        (fun _ => 5) := by
  have h1 : (⟨10, 1 / 10 ^ 10, 2, [fun _ => 1], [fun _ => 2]⟩ : LState 1).pairs.length = 1 ∨
      (⟨10, 1 / 10 ^ 10, 2, [fun _ => 1], [fun _ => 2]⟩ : LState 1).pairs.length = 2 ∨
      (⟨10, 1 / 10 ^ 10, 2, [fun _ => 1], [fun _ => 2]⟩ : LState 1).pairs.length = 3 :=
    Or.inl rfl
  have h2 : ∀ p ∈ (⟨10, 1 / 10 ^ 10, 2, [fun _ => 1], [fun _ => 2]⟩ : LState 1).pairs,
      0 < inner_prod p.2 p.1 := by
    intro p hp
    have hpe : p = (fun _ => (1 : ℚ), fun _ => (2 : ℚ)) := by
      simpa [LState.pairs] using hp
    rw [hpe]
    norm_num [inner_prod, Fin.sum_univ_one]
  exact ⟨h1, h2, claim_C2_twoLoop_matches_dense _ _ h1 h2⟩

theorem claim_C3_witness :
    (runHist (initModel 1 2)
        [((fun _ => 1, fun _ => 1) : Vec 1 × Vec 1), (fun _ => 1, fun _ => 2),
          (fun _ => 1, fun _ => 3)]).steps =
      suffixCap 2 ((admittedPairs (1 / 10 ^ 10)
        [((fun _ => 1, fun _ => 1) : Vec 1 × Vec 1), (fun _ => 1, fun _ => 2),
          (fun _ => 1, fun _ => 3)]).map Prod.snd) ∧
    (runHist (initModel 1 2)
        [((fun _ => 1, fun _ => 1) : Vec 1 × Vec 1), (fun _ => 1, fun _ => 2),
          (fun _ => 1, fun _ => 3)]).gradientDifferences =
      suffixCap 2 ((admittedPairs (1 / 10 ^ 10)
        [((fun _ => 1, fun _ => 1) : Vec 1 × Vec 1), (fun _ => 1, fun _ => 2),
          (fun _ => 1, fun _ => 3)]).map Prod.fst) ∧
    (runHist (initModel 1 2)
        [((fun _ => 1, fun _ => 1) : Vec 1 × Vec 1), (fun _ => 1, fun _ => 2),
          (fun _ => 1, fun _ => 3)]).steps.length =
      (runHist (initModel 1 2)
        [((fun _ => 1, fun _ => 1) : Vec 1 × Vec 1), (fun _ => 1, fun _ => 2),
          (fun _ => 1, fun _ => 3)]).gradientDifferences.length ∧
    (runHist (initModel 1 2)
        [((fun _ => 1, fun _ => 1) : Vec 1 × Vec 1), (fun _ => 1, fun _ => 2),
          (fun _ => 1, fun _ => 3)]).steps.length ≤ 2 :=
  claim_C3_history_fifo 2 _ (by norm_num)

theorem claim_C4_witness :
    updateHist (initModel 1 2) (fun _ => 1) (fun _ => 0) = initModel 1 2 ∧
    updateHist (initModel 1 2) (fun _ => 1) (fun _ => 1) =
      { initModel 1 2 with
          steps :=
            (if (initModel 1 2).numHist ≤ (initModel 1 2).steps.length then
              (initModel 1 2).steps.tail else (initModel 1 2).steps)
              ++ [fun _ => 1],
          gradientDifferences :=
            (if (initModel 1 2).numHist ≤ (initModel 1 2).steps.length then
              (initModel 1 2).gradientDifferences.tail
              else (initModel 1 2).gradientDifferences) ++ [fun _ => 1],
          bdiag := inner_prod (fun _ => 1 : Vec 1) (fun _ => 1) /
            inner_prod (fun _ => 1 : Vec 1) (fun _ => 1) } :=
  ⟨(claim_C4_curvature_gate (initModel 1 2) (fun _ => 1) (fun _ => 0)).1
      (by norm_num [inner_prod, initModel]),
    (claim_C4_curvature_gate (initModel 1 2) (fun _ => 1) (fun _ => 1)).2
      (by norm_num [inner_prod, initModel, Fin.sum_univ_one])⟩

theorem claim_C6_witness :
    0 < (⟨10, 1 / 10 ^ 10, 2, [fun _ => 1], [fun _ => 2]⟩ : LState 1).bdiag ∧
    (∀ p ∈ (⟨10, 1 / 10 ^ 10, 2, [fun _ => 1], [fun _ => 2]⟩ : LState 1).pairs,
      0 < inner_prod p.2 p.1) ∧
    multB (⟨10, 1 / 10 ^ 10, 2, [fun _ => 1], [fun _ => 2]⟩ : LState 1)
        (multBInv (⟨10, 1 / 10 ^ 10, 2, [fun _ => 1], [fun _ => 2]⟩ : LState 1)
          (fun _ => 5)) =
      (fun _ => 5) := by
  have h1 : 0 < (⟨10, 1 / 10 ^ 10, 2, [fun _ => 1], [fun _ => 2]⟩ : LState 1).bdiag := by
    norm_num
  have h2 : ∀ p ∈ (⟨10, 1 / 10 ^ 10, 2, [fun _ => 1], [fun _ => 2]⟩ : LState 1).pairs,
      0 < inner_prod p.2 p.1 := by
    intro p hp
    have hpe : p = (fun _ => (1 : ℚ), fun _ => (2 : ℚ)) := by
      simpa [LState.pairs] using hp
    rw [hpe]
    norm_num [inner_prod, Fin.sum_univ_one]
  exact ⟨h1, h2, claim_C6_forward_inverse _ _ h1 h2⟩

theorem claim_C9_witness :
    inactiveAt (fun _ => 0 : Vec 1) (fun _ => -1) (fun _ => EBound.ninf)
      (fun _ => EBound.fin 0) 0 ∧
    getBoxConstrainedDirection (initModel 1 1) (fun _ => 0) (fun _ => -1)
      (fun _ => EBound.ninf) (fun _ => EBound.fin 0) 0 = 0 := by
  have h : inactiveAt (fun _ => 0 : Vec 1) (fun _ => -1) (fun _ => EBound.ninf)
      (fun _ => EBound.fin 0) 0 :=
    Or.inr ⟨by norm_num [EBound.ltq, boxEps], by norm_num⟩
  exact ⟨h, claim_C9_inactive_gets_zero (initModel 1 1) _ _ _ _ 0 h⟩
